import Mathlib

/-!
# Verification of the CodeMind incremental indexing and graph-traversal core

Shallow embedding of the Redis-backed call-graph store (`RedisStore`), the
per-file indexer (`FunctionIndexer`), the batch pipeline (`BatchIndexer`) and
the orchestrator (`CodebaseIndexer`) of the CodeMind repository, together with
proofs and refutations of the specified properties.

The Redis key space is modelled by association lists: one per key namespace
(`function:<name>` hashes, `function:<name>:calls` sets,
`function:<name>:called_by` sets, the `file:metadata` hash and the
`file:<path>:meta` hashes).  JavaScript string operations used by the code
(`String.prototype.includes`, `String.prototype.replace` with a string
pattern, i.e. first occurrence only) are modelled character-exactly.
-/

namespace CodeMind

/-! ## JavaScript string primitives -/

/-- Boolean "is prefix" on character lists (JS `startsWith` on the tail
positions; building block for `includes`). -/
def listPfx : List Char → List Char → Bool
  | [], _ => true
  | _ :: _, [] => false
  | a :: as, b :: bs => a = b && listPfx as bs

/-- Boolean substring occurrence test on character lists: models
JS `String.prototype.includes`. -/
def isInfixB (pat : List Char) : List Char → Bool
  | [] => pat.isEmpty
  | b :: bs => listPfx pat (b :: bs) || isInfixB pat bs

/-- JS `s.includes(pat)`. -/
def strIncludes (s pat : String) : Bool :=
  isInfixB pat.data s.data

/-- Replace the first occurrence of `pat` by `repl`, on character lists:
models JS `String.prototype.replace` with a string pattern. -/
def replaceFirstL (pat repl : List Char) : List Char → List Char
  | [] => if pat.isEmpty then repl else []
  | b :: bs =>
    if listPfx pat (b :: bs) then repl ++ (b :: bs).drop pat.length
    else b :: replaceFirstL pat repl bs

/-- JS `s.replace(pat, repl)` (first occurrence only). -/
def strReplaceFirst (s pat repl : String) : String :=
  ⟨replaceFirstL pat.data repl.data s.data⟩

/-! ## Association-list primitives (the Redis key space) -/

/-- Write key `k` to value `v`: in-place overwrite if present, append
otherwise (Redis `HSET` of a whole hash / key write). -/
def setAssoc {α : Type} (k : String) (v : α) : List (String × α) → List (String × α)
  | [] => [(k, v)]
  | (k', v') :: rest =>
    if k' = k then (k, v) :: rest else (k', v') :: setAssoc k v rest

/-- Read key `k` (Redis key lookup). -/
def getAssoc {α : Type} (k : String) : List (String × α) → Option α
  | [] => none
  | (k', v') :: rest => if k' = k then some v' else getAssoc k rest

/-- Delete key `k` (Redis `DEL` / `HDEL`). -/
def delAssoc {α : Type} (k : String) : List (String × α) → List (String × α)
  | [] => []
  | (k', v') :: rest =>
    if k' = k then delAssoc k rest else (k', v') :: delAssoc k rest

/-- Insert into a set, ignoring duplicates, preserving insertion order
(JS `Set.prototype.add`, Redis `SADD` member order for our model). -/
def addSet (x : String) (l : List String) : List String :=
  if x ∈ l then l else l ++ [x]

/-- Redis `SADD key x`: create the set key if absent, then insert. -/
def saddAssoc (k x : String) (l : List (String × List String)) :
    List (String × List String) :=
  setAssoc k (addSet x ((getAssoc k l).getD [])) l

/-! ## Data model

`RedisStore` (src/core/redis-store.js) keeps, per function name, a hash
`function:<name>` of metadata fields, a set `function:<name>:calls` of outgoing
calls and a set `function:<name>:called_by` of incoming callers; plus the
`file:metadata` hash mapping each file path to its content hash, and a
`file:<path>:meta` hash holding the `lastIndexed` timestamp. -/

/-- The typed content of a `function:<name>` hash as written by
`RedisStore.setFunction` (fields `file`, `line`, `endLine`, `params`,
`isAsync`, `isExported`, `type`, `lastIndexed`). -/
structure FunctionMeta where
  file : String
  line : Nat
  endLine : Nat
  params : List String
  isAsync : Bool
  isExported : Bool
  typ : String
  lastIndexed : Nat
deriving DecidableEq, Repr

/-- The `metadata` argument of `RedisStore.setFunction`, before the
JS-falsiness defaults (`metadata.endLine || metadata.line`,
`metadata.params || []`, `metadata.type || 'function'`) are applied.
`none` models a missing (`undefined`) property. -/
structure MetaIn where
  file : String
  line : Nat
  endLine : Option Nat
  params : Option (List String)
  isAsync : Bool
  isExported : Bool
  typ : Option String
deriving DecidableEq, Repr

/-- JS `v || d` for a numeric property: `undefined` and `0` are falsy. -/
def jsOrNat (v : Option Nat) (d : Nat) : Nat :=
  match v with
  | none => d
  | some n => if n = 0 then d else n

/-- JS `v || d` for a string property: `undefined` and `''` are falsy. -/
def jsOrStr (v : Option String) (d : String) : String :=
  match v with
  | none => d
  | some s => if s = "" then d else s

/-- The hash fields actually written by `RedisStore.setFunction`
(`Date.now()` is passed in as `t`). -/
def normalizeMeta (m : MetaIn) (t : Nat) : FunctionMeta :=
  { file := m.file
    line := m.line
    endLine := jsOrNat m.endLine m.line
    params := m.params.getD []
    isAsync := m.isAsync
    isExported := m.isExported
    typ := jsOrStr m.typ "function"
    lastIndexed := t }

/-- The store state: one association list per key namespace. A key exists in
Redis exactly when it has an entry here (set keys are created by `SADD` and
removed by `DEL`, so no empty-set entries arise from the modelled code). -/
structure Store where
  functions : List (String × FunctionMeta)
  calls : List (String × List String)
  calledBy : List (String × List String)
  fileHashes : List (String × String)
  fileMeta : List (String × Nat)
deriving DecidableEq, Repr

/-- The empty Redis database. -/
def emptyStore : Store :=
  { functions := [], calls := [], calledBy := [], fileHashes := [], fileMeta := [] }

/-! ## RedisStore operations (src/core/redis-store.js) -/

/-- `RedisStore.setFunction(functionName, metadata)`: `HSET` of the whole
`function:<name>` hash. -/
def setFunction (functionName : String) (m : MetaIn) (t : Nat) (s : Store) : Store :=
  { s with functions := setAssoc functionName (normalizeMeta m t) s.functions }

/-- `RedisStore.getFunction(functionName)`: `HGETALL`, `null` when the key has
no fields. -/
def getFunction (functionName : String) (s : Store) : Option FunctionMeta :=
  getAssoc functionName s.functions

/-- `RedisStore.addFunctionCall(caller, called)`: `SADD` on the caller's
`:calls` set and on the callee's `:called_by` set (both sides in one
operation). -/
def addFunctionCall (caller called : String) (s : Store) : Store :=
  { s with
    calls := saddAssoc caller called s.calls
    calledBy := saddAssoc called caller s.calledBy }

/-- `RedisStore.getFunctionCalls(functionName)`: `SMEMBERS` of the `:calls`
set; empty for a missing key. -/
def getFunctionCalls (s : Store) (functionName : String) : List String :=
  (getAssoc functionName s.calls).getD []

/-- `RedisStore.getFunctionCallers(functionName)`: `SMEMBERS` of the
`:called_by` set; empty for a missing key. -/
def getFunctionCallers (s : Store) (functionName : String) : List String :=
  (getAssoc functionName s.calledBy).getD []

/-- `RedisStore.setFileHash(filePath, hash)`: `HSET file:metadata` plus the
`file:<path>:meta` `lastIndexed` stamp. -/
def setFileHash (filePath hash : String) (t : Nat) (s : Store) : Store :=
  { s with
    fileHashes := setAssoc filePath hash s.fileHashes
    fileMeta := setAssoc filePath t s.fileMeta }

/-- `RedisStore.getFileHash(filePath)` on a reachable store: `HGET
file:metadata <path>` (the connectivity-failure branch is modelled separately
by `getFileHashClient`). -/
def getFileHashPure (filePath : String) (s : Store) : Option String :=
  getAssoc filePath s.fileHashes

/-- `RedisStore.shouldReindex(filePath, content)`: reindex when no hash is
stored or the stored hash differs from `hashFn content` (the MD5 digest is
abstracted as `hashFn`). -/
def shouldReindex (hashFn : String → String) (filePath content : String)
    (s : Store) : Bool :=
  match getFileHashPure filePath s with
  | none => true
  | some stored => hashFn content ≠ stored

/-- The keys produced by `SCAN ... MATCH function:*` over the whole store:
metadata hashes and both edge-set namespaces. The cursor loop in the source
accumulates exactly these keys, so the model enumerates them in one page. -/
def scanFunctionKeys (s : Store) : List String :=
  s.functions.map (fun p => "function:" ++ p.1)
    ++ s.calls.map (fun p => "function:" ++ p.1 ++ ":calls")
    ++ s.calledBy.map (fun p => "function:" ++ p.1 ++ ":called_by")

/-- The filter applied by `getAllFunctions` and `getStats` to scanned keys:
`!key.includes(':calls') && !key.includes(':called_by')`. -/
def isBaseFunctionKey (key : String) : Bool :=
  !(strIncludes key ":calls") && !(strIncludes key ":called_by")

/-- `RedisStore.getAllFunctions` accumulated over the full cursor loop (as
`CodebaseIndexer.getAllFunctions` does): scan `function:*`, drop keys whose
text contains `:calls` or `:called_by`, strip the first `function:`. -/
def getAllFunctions (s : Store) : List String :=
  ((scanFunctionKeys s).filter isBaseFunctionKey).map
    (fun key => strReplaceFirst key "function:" "")

/-- The function-record keys counted by `RedisStore.getStats` (same scan and
same filter as `getAllFunctions`). -/
def statsCountedKeys (s : Store) : List String :=
  (scanFunctionKeys s).filter isBaseFunctionKey

/-- `RedisStore.getStats()`: `HLEN file:metadata` and the filtered
`function:*` key count. -/
structure Stats where
  filesIndexed : Nat
  functionsIndexed : Nat
  timestamp : Nat
deriving DecidableEq, Repr

/-- `RedisStore.getStats()` on a reachable store. -/
def getStats (s : Store) (t : Nat) : Stats :=
  { filesIndexed := s.fileHashes.length
    functionsIndexed := (statsCountedKeys s).length
    timestamp := t }

/-- Delete the metadata hash and both edge sets of one function
(the three `DEL`s in `deleteFileData`'s per-function loop). -/
def delFunction (functionName : String) (s : Store) : Store :=
  { s with
    functions := delAssoc functionName s.functions
    calls := delAssoc functionName s.calls
    calledBy := delAssoc functionName s.calledBy }

/-- `RedisStore.deleteFileData(filePath)`, exactly as written: scan all
`function:*` keys, skip any key for which `key.includes(':')` holds (the
source comment says "Skip relationship keys"), look up the survivors'
metadata and keep those whose `file` field equals `filePath`; delete those
functions' data, then `HDEL` the file's fingerprint and `DEL` its
`file:<path>:meta` hash. -/
def deleteFileDataScan (filePath : String) (s : Store) : List String :=
  (scanFunctionKeys s).filterMap (fun key =>
    if strIncludes key ":" then none
    else
      let name := strReplaceFirst key "function:" ""
      match getFunction name s with
      | some md => if md.file = filePath then some name else none
      | none => none)

/-- The mutation part of `deleteFileData`: delete the collected functions'
data, then the file's fingerprint and metadata records. -/
def deleteFileData (filePath : String) (s : Store) : Store :=
  let s1 := (deleteFileDataScan filePath s).foldl (fun acc n => delFunction n acc) s
  { s1 with
    fileHashes := delAssoc filePath s1.fileHashes
    fileMeta := delAssoc filePath s1.fileMeta }

/-! ## FunctionIndexer (src/indexers/function-indexer.js) -/

/-- A parsed function record as produced by the JavaScript parser and consumed
by `FunctionIndexer.indexFunction`. -/
structure FnRecord where
  name : String
  line : Nat
  endLine : Nat
  params : List String
  calls : List String
  isAsync : Bool
  isExported : Bool
  typ : String
deriving DecidableEq, Repr

/-- `FunctionIndexer.indexFunction(filePath, fn)`: one `setFunction` write
followed by one `addFunctionCall` per entry of `fn.calls`. -/
def indexFunction (filePath : String) (fn : FnRecord) (t : Nat) (s : Store) : Store :=
  let s1 := setFunction fn.name
    { file := filePath, line := fn.line, endLine := some fn.endLine
      params := some fn.params, isAsync := fn.isAsync
      isExported := fn.isExported, typ := some fn.typ } t s
  fn.calls.foldl (fun acc c => addFunctionCall fn.name c acc) s1

/-- `FunctionIndexer.index(filePath, functions)` on a reachable store: each
record is indexed in turn; with the store reachable no per-function write
throws, so all records count as indexed and none as errors. -/
def indexerIndex (filePath : String) (fns : List FnRecord) (t : Nat) (s : Store) :
    (Nat × Nat) × Store :=
  ((fns.length, 0), fns.foldl (fun acc fn => indexFunction filePath fn t acc) s)

/-- A node of the dependency tree built by `traceDependencies`
(`{function, dependencies, depth}`). -/
inductive DepTree where
  | node (fn : String) (depth : Nat) (dependencies : List DepTree)
deriving Repr

/-- `FunctionIndexer._traceDependenciesRecursive`, fuel-indexed with
`fuel = maxDepth - depth` (the source checks `depth >= maxDepth` at entry, so
this measure mirrors the recursion exactly).  Returns the children pushed
into the current node together with the final visited set; a visited name or
an exhausted depth budget contributes no children.  The visited set is shared
across the whole walk, and each child node is pushed before the recursive
call, mirroring the mutation order of the source. -/
def traceChildren (s : Store) : Nat → Nat → String → List String →
    (List DepTree × List String)
  | 0, _, _, visited => ([], visited)
  | fuel + 1, d, name, visited =>
    if name ∈ visited then ([], visited)
    else
      (getFunctionCalls s name).foldl
        (fun acc called =>
          let r := traceChildren s fuel (d + 1) called acc.2
          (acc.1 ++ [DepTree.node called (d + 1) r.1], r.2))
        ([], addSet name visited)

/-- `FunctionIndexer.traceDependencies(functionName, maxDepth)`: root node at
depth 0, children filled in by the recursive walk started at depth 0. -/
def traceDependencies (s : Store) (functionName : String) (maxDepth : Nat) : DepTree :=
  DepTree.node functionName 0 (traceChildren s maxDepth 0 functionName []).1

/-- `FunctionIndexer._findAffectedRecursive`, fuel-indexed with
`fuel = maxDepth - depth`.  The accumulating `affected` set doubles as the
visited set: entry returns immediately when the argument name is already a
member; each caller is added to the set before the recursive call on it. -/
def findAffectedRec (s : Store) : Nat → String → List String → List String
  | 0, _, affected => affected
  | fuel + 1, name, affected =>
    if name ∈ affected then affected
    else
      (getFunctionCallers s name).foldl
        (fun acc caller => findAffectedRec s fuel caller (addSet caller acc))
        affected

/-- `FunctionIndexer.findAffectedFunctions(functionName, maxDepth)`
(`Array.from` of the accumulated set, in insertion order). -/
def findAffectedFunctions (s : Store) (functionName : String) (maxDepth : Nat) :
    List String :=
  findAffectedRec s maxDepth functionName []

/-! ## BatchIndexer (src/core/batch-indexer.js) -/

/-- One entry of the `functions` argument of
`BatchIndexer.batchIndexFunctions`: `{name, metadata, calls}`. -/
structure BatchFn where
  name : String
  metadata : MetaIn
  calls : List String
deriving Repr

/-- The store mutations queued by `batchIndexFunctions`' pipeline: per record
one metadata `HSET` and a pair of `SADD`s per call (both edge directions in
the same submission). Applied when `pipeline.exec()` succeeds. -/
def batchPipelineOps (fns : List BatchFn) (t : Nat) (s : Store) : Store :=
  fns.foldl
    (fun acc fn =>
      fn.calls.foldl (fun a c => addFunctionCall fn.name c a)
        (setFunction fn.name fn.metadata t acc))
    s

/-- The `{indexed, errors}` counts returned by
`BatchIndexer.batchIndexFunctions`: `(0, 0)` for an empty input, all-or-
nothing otherwise depending on whether `pipeline.exec()` succeeded. -/
def batchIndexFunctionsCounts (fns : List BatchFn) (execOk : Bool) : Nat × Nat :=
  if fns.isEmpty then (0, 0)
  else if execOk then (fns.length, 0)
  else (0, fns.length)

/-- `BatchIndexer.batchDeleteFiles(filePaths)`: per path only the
`HDEL file:metadata` and the `DEL file:<path>:meta` are queued (the source
comment notes per-function deletion is skipped). -/
def batchDeleteFiles (filePaths : List String) (s : Store) : Store :=
  filePaths.foldl
    (fun acc p =>
      { acc with
        fileHashes := delAssoc p acc.fileHashes
        fileMeta := delAssoc p acc.fileMeta })
    s

/-! ## Parser dispatch and shape validation
(src/parsers/javascript-parser.js, base-parser.js, parser-registry.js) -/

/-- JS `s.endsWith(suf)`. -/
def strEndsWith (s suf : String) : Bool :=
  listPfx suf.data.reverse s.data.reverse

/-- `JavaScriptParser.canParse(filePath)`: extension match over the supported
list.  `CodebaseIndexer` registers exactly this one parser, so
`parserRegistry.getParser(filePath)` finds a parser iff this returns true. -/
def jsCanParse (filePath : String) : Bool :=
  [".js", ".jsx", ".ts", ".tsx", ".mjs", ".cjs"].any (fun ext => strEndsWith filePath ext)

/-- The shape of a parser result as seen by `BaseParser.validateResult`:
either an object carrying a `functions` array, or anything else. -/
inductive ParseShape where
  | ok (functions : List FnRecord)
  | invalid
deriving Repr

/-- `BaseParser.validateResult(result)`. -/
def validateResult : ParseShape → Bool
  | .ok _ => true
  | .invalid => false

/-- Outcome of the Babel `parse` call inside `JavaScriptParser.parse`: either
an AST whose traversal yields the given records, or a thrown parse error. -/
inductive BabelOutcome where
  | parsed (functions : List FnRecord)
  | raised
deriving Repr

/-- `JavaScriptParser.parse`: the catch branch converts a thrown parse error
into the valid empty result `{functions: [], imports: [], classes: []}`. -/
def jsParserParse : BabelOutcome → ParseShape
  | .parsed fns => .ok fns
  | .raised => .ok []

/-! ## CodebaseIndexer (src/core/indexer.js) -/

/-- The value returned by `CodebaseIndexer.indexFile`. -/
structure IndexFileResult where
  skipped : Bool
  functionsIndexed : Nat
  errors : Nat
deriving DecidableEq, Repr

/-- `CodebaseIndexer.indexFile(filePath, options)` with the file's parse
result supplied as `parseResult` (the parser is external to the core): parser
dispatch, change detection, stale-data deletion, shape validation, function
indexing and fingerprint update, in source order. -/
def indexFile (hashFn : String → String) (filePath content : String)
    (force skipDelete : Bool) (parseResult : ParseShape) (t : Nat) (s : Store) :
    IndexFileResult × Store :=
  if !jsCanParse filePath then
    ({ skipped := true, functionsIndexed := 0, errors := 0 }, s)
  else if !force && !shouldReindex hashFn filePath content s then
    ({ skipped := true, functionsIndexed := 0, errors := 0 }, s)
  else
    let s1 := if !skipDelete then deleteFileData filePath s else s
    match parseResult with
    | .invalid => ({ skipped := false, functionsIndexed := 0, errors := 1 }, s1)
    | .ok fns =>
      let r := indexerIndex filePath fns t s1
      let s2 := setFileHash filePath (hashFn content) t r.2
      ({ skipped := false, functionsIndexed := r.1.1, errors := r.1.2 }, s2)

/-- The aggregate counters of `CodebaseIndexer.indexCodebase`. -/
structure RunTotals where
  filesProcessed : Nat
  filesSkipped : Nat
  functionsIndexed : Nat
  errors : Nat
deriving DecidableEq, Repr

/-- One iteration of the per-file loop of `indexCodebase`: a thrown per-file
error is caught, counted and the loop moves on; otherwise skipped files and
processed files update the respective counters. -/
def runStep (step : String → Except String IndexFileResult)
    (tot : RunTotals) (file : String) : RunTotals :=
  match step file with
  | .error _ => { tot with errors := tot.errors + 1 }
  | .ok r =>
    if r.skipped then { tot with filesSkipped := tot.filesSkipped + 1 }
    else
      { tot with
        filesProcessed := tot.filesProcessed + 1
        functionsIndexed := tot.functionsIndexed + r.functionsIndexed
        errors := tot.errors + r.errors }

/-- The per-file loop of `CodebaseIndexer.indexCodebase` over the discovered
file list, with `step` the (possibly throwing) body `indexFile`. -/
def indexCodebaseLoop (step : String → Except String IndexFileResult)
    (files : List String) : RunTotals :=
  files.foldl (runStep step)
    { filesProcessed := 0, filesSkipped := 0, functionsIndexed := 0, errors := 0 }

/-! ## Connectivity-failure branches of RedisStore -/

/-- `RedisStore.getFileHash` including its catch branch: a store read that
throws (connectivity failure) is logged and `null` is returned. -/
def getFileHashClient (outcome : Except String (Option String)) : Option String :=
  match outcome with
  | .ok h => h
  | .error _ => none

/-- `RedisStore.shouldReindex` on a possibly-failing store: the stored hash is
whatever `getFileHash` produced. -/
def shouldReindexClient (hashFn : String → String) (content : String)
    (outcome : Except String (Option String)) : Bool :=
  match getFileHashClient outcome with
  | none => true
  | some stored => hashFn content ≠ stored

/-! ## Spec-side measurement definitions -/

/-- The edge-symmetry invariant: `y ∈ calls(x)` iff `x ∈ called_by(y)`. -/
def edgeSymmetric (s : Store) : Prop :=
  ∀ x y, y ∈ getFunctionCalls s x ↔ x ∈ getFunctionCallers s y

/-- The store states reachable from the empty database by sequences of the
core's mutating operations: single-key writes, edge insertions, fingerprint
writes, file deletion, and the two batch submissions (a successful
`batchIndexFunctions` pipeline applies `batchPipelineOps`). -/
inductive Reachable : Store → Prop where
  | empty : Reachable emptyStore
  | setFn (name : String) (m : MetaIn) (t : Nat) {s : Store} :
      Reachable s → Reachable (setFunction name m t s)
  | addCall (a b : String) {s : Store} :
      Reachable s → Reachable (addFunctionCall a b s)
  | setHash (p h : String) (t : Nat) {s : Store} :
      Reachable s → Reachable (setFileHash p h t s)
  | delFile (p : String) {s : Store} :
      Reachable s → Reachable (deleteFileData p s)
  | batch (fns : List BatchFn) (t : Nat) {s : Store} :
      Reachable s → Reachable (batchPipelineOps fns t s)
  | batchDel (ps : List String) {s : Store} :
      Reachable s → Reachable (batchDeleteFiles ps s)

/-- Number of nodes labelled `n` in a dependency tree, down to depth `fuel`
(the trees produced by `traceDependencies s f maxDepth` have height at most
`maxDepth`, so any `fuel > maxDepth` counts the whole tree). -/
def countNameT (n : String) : Nat → DepTree → Nat
  | 0, _ => 0
  | fuel + 1, .node f _ deps => (if f = n then 1 else 0) + (deps.map (countNameT n fuel)).sum

/-- The names of the nodes carrying a nonempty `dependencies` list (the
functions actually expanded by the walk), down to depth `fuel`. -/
def expandedNamesT : Nat → DepTree → List String
  | 0, _ => []
  | fuel + 1, .node f _ deps =>
    (if deps.isEmpty then [] else [f]) ++ (deps.map (expandedNamesT fuel)).flatten

/-- `expandedNamesT` over a forest. -/
def expandedNamesF (fuel : Nat) (F : List DepTree) : List String :=
  (F.map (expandedNamesT fuel)).flatten

/-- The `(function, depth)` pairs of all nodes of a dependency tree, down to
depth `fuel`. -/
def nodeDepths : Nat → DepTree → List (String × Nat)
  | 0, _ => []
  | fuel + 1, .node f d deps => (f, d) :: (deps.map (nodeDepths fuel)).flatten

/-- `x` is reachable from `start` in at least one and at most `fuel` reverse
hops along the `called_by` sets. -/
def revReachB (s : Store) : Nat → String → String → Bool
  | 0, _, _ => false
  | fuel + 1, start, x =>
    (getFunctionCallers s start).any (fun c => c = x || revReachB s fuel c x)

/-- The invariant proved about one invocation of the forward-trace recursion:
the visited set grows monotonically; a nonempty child forest implies the
argument name was recorded as visited; and the names expanded inside the
returned forest are duplicate-free, freshly visited, and distinct from both
the argument name and every previously visited name. -/
def TraceSpec (s : Store) (fuel d : Nat) (name : String) (visited : List String) :
    Prop :=
  (∀ x ∈ visited, x ∈ (traceChildren s fuel d name visited).2) ∧
  ((traceChildren s fuel d name visited).1 ≠ [] →
    name ∈ (traceChildren s fuel d name visited).2) ∧
  ∀ fuelE,
    (expandedNamesF fuelE (traceChildren s fuel d name visited).1).Nodup ∧
    ∀ x ∈ expandedNamesF fuelE (traceChildren s fuel d name visited).1,
      x ∈ (traceChildren s fuel d name visited).2 ∧ x ∉ addSet name visited

/-- The invariant carried through the sibling fold of the forward-trace
recursion (`acc` is the pair of forest-so-far and visited-so-far). -/
def TraceFoldInv (name : String) (visited : List String)
    (acc : List DepTree × List String) : Prop :=
  (∀ x ∈ addSet name visited, x ∈ acc.2) ∧
  ∀ fuelE,
    (expandedNamesF fuelE acc.1).Nodup ∧
    ∀ x ∈ expandedNamesF fuelE acc.1, x ∈ acc.2 ∧ x ∉ addSet name visited

/-! ## Concrete stores used by the evaluation theorems -/

/-- The cyclic call graph of the spec's end-to-end scenario:
`a` calls `b`, `b` calls `c`, `c` calls `a`. -/
def cycStore : Store :=
  addFunctionCall "c" "a" (addFunctionCall "b" "c" (addFunctionCall "a" "b" emptyStore))

/-- A single self-recursive function `f`. -/
def selfLoopStore : Store :=
  addFunctionCall "f" "f" emptyStore

/-- A diamond: `a` calls `b` and `c`, both of which call `d`. -/
def diamondStore : Store :=
  addFunctionCall "c" "d"
    (addFunctionCall "b" "d" (addFunctionCall "a" "c" (addFunctionCall "a" "b" emptyStore)))

/-- A store holding one indexed file `a.js` with its only function `foo`
(which calls `g`), plus `a.js`'s fingerprint. -/
def fooStore : Store :=
  setFileHash "a.js" "H" 1
    (addFunctionCall "foo" "g"
      (setFunction "foo"
        { file := "a.js", line := 3, endLine := some 9, params := some []
          isAsync := false, isExported := true, typ := some "function" } 1 emptyStore))

/-- A sample `setFunction` metadata argument. -/
def metaA : MetaIn :=
  { file := "a.js", line := 4, endLine := some 6, params := some ["x"]
    isAsync := false, isExported := false, typ := some "function" }

/-- A constant stand-in for the MD5 content digest. -/
def hashH : String → String := fun _ => "H"

/-- A per-file indexing step for which exactly the file `b.js` hits a store
connectivity failure (the thrown error propagates out of `indexFile`). -/
def stepConn : String → Except String IndexFileResult := fun f =>
  if f = "b.js" then .error "ECONNREFUSED"
  else .ok { skipped := false, functionsIndexed := 1, errors := 0 }

/-- A sample batch record. -/
def bfnA : BatchFn := { name := "pay", metadata := metaA, calls := ["log"] }

/-! ## Association-list lemmas -/

theorem getAssoc_setAssoc_self {α : Type} (k : String) (v : α)
    (l : List (String × α)) : getAssoc k (setAssoc k v l) = some v := by
  induction l with
  | nil => simp [setAssoc, getAssoc]
  | cons p rest ih =>
    by_cases h : p.1 = k
    · cases p; simp_all [setAssoc, getAssoc]
    · cases p; simp_all [setAssoc, getAssoc]

theorem getAssoc_setAssoc_ne {α : Type} {k k' : String} (h : k ≠ k') (v : α)
    (l : List (String × α)) : getAssoc k (setAssoc k' v l) = getAssoc k l := by
  induction l with
  | nil => simp [setAssoc, getAssoc, Ne.symm h]
  | cons p rest ih =>
    by_cases h' : p.1 = k'
    · cases p; simp_all [setAssoc, getAssoc, Ne.symm h]
    · cases p; simp_all [setAssoc, getAssoc]

theorem setAssoc_setAssoc {α : Type} (k : String) (v v' : α)
    (l : List (String × α)) : setAssoc k v (setAssoc k v' l) = setAssoc k v l := by
  induction l with
  | nil => simp [setAssoc]
  | cons p rest ih =>
    by_cases h : p.1 = k
    · cases p; simp_all [setAssoc]
    · cases p; simp_all [setAssoc]

theorem mem_addSet {x y : String} {l : List String} :
    y ∈ addSet x l ↔ y = x ∨ y ∈ l := by
  unfold addSet
  by_cases h : x ∈ l
  · simp only [if_pos h]
    constructor
    · exact Or.inr
    · rintro (rfl | hy)
      · exact h
      · exact hy
  · simp [if_neg h, or_comm]

theorem mem_saddAssoc {a b x y : String} {l : List (String × List String)} :
    y ∈ (getAssoc x (saddAssoc a b l)).getD [] ↔
      (x = a ∧ (y = b ∨ y ∈ (getAssoc a l).getD []))
        ∨ (x ≠ a ∧ y ∈ (getAssoc x l).getD []) := by
  by_cases h : x = a
  · subst h
    rw [saddAssoc, getAssoc_setAssoc_self]
    simp [mem_addSet]
  · rw [saddAssoc, getAssoc_setAssoc_ne h]
    simp [h]

/-! ## String lemmas -/

theorem listPfx_extend {p l : List Char} (h : listPfx p l = true) (r : List Char) :
    listPfx p (l ++ r) = true := by
  induction p generalizing l with
  | nil => simp [listPfx]
  | cons c cs ih =>
    cases l with
    | nil => simp [listPfx] at h
    | cons b bs =>
      simp only [listPfx, Bool.and_eq_true, decide_eq_true_eq] at h
      simp only [List.cons_append, listPfx, Bool.and_eq_true, decide_eq_true_eq]
      exact ⟨h.1, ih h.2⟩

theorem listPfx_append_self (p r : List Char) : listPfx p (p ++ r) = true := by
  induction p with
  | nil => simp [listPfx]
  | cons c cs ih => simp [listPfx, ih]

theorem listPfx_refl (p : List Char) : listPfx p p = true := by
  have := listPfx_append_self p []
  simpa using this

theorem isInfixB_nil_left (l : List Char) : isInfixB [] l = true := by
  cases l <;> simp [isInfixB, listPfx, List.isEmpty]

theorem isInfixB_extend_right {p l : List Char} (h : isInfixB p l = true)
    (r : List Char) : isInfixB p (l ++ r) = true := by
  induction l with
  | nil =>
    simp only [isInfixB, List.isEmpty_iff] at h
    subst h
    simpa using isInfixB_nil_left r
  | cons b bs ih =>
    simp only [isInfixB, Bool.or_eq_true] at h
    rcases h with h | h
    · simp only [List.cons_append, isInfixB, Bool.or_eq_true]
      exact Or.inl (listPfx_extend h r)
    · simp only [List.cons_append, isInfixB, Bool.or_eq_true]
      exact Or.inr (ih h)

theorem isInfixB_extend_left {p r : List Char} (h : isInfixB p r = true)
    (l : List Char) : isInfixB p (l ++ r) = true := by
  induction l with
  | nil => simpa using h
  | cons b bs ih =>
    simp only [List.cons_append, isInfixB, Bool.or_eq_true]
    exact Or.inr ih

theorem isInfixB_self (p : List Char) : isInfixB p p = true := by
  cases p with
  | nil => simp [isInfixB, List.isEmpty]
  | cons c cs => simp [isInfixB, listPfx_refl]

theorem str_data_append (a b : String) : (a ++ b).data = a.data ++ b.data := rfl

theorem strIncludes_of_data_suffix {k : String} {pat : String} {l : List Char}
    (h : k.data = l ++ pat.data) : strIncludes k pat = true := by
  unfold strIncludes
  rw [h]
  exact isInfixB_extend_left (isInfixB_self _) l

theorem strIncludes_colon_function_pfx (x : String) :
    strIncludes ("function:" ++ x) ":" = true := by
  unfold strIncludes
  rw [str_data_append]
  exact isInfixB_extend_right (by decide) _

theorem scanFunctionKeys_includes_colon {s : Store} {key : String}
    (h : key ∈ scanFunctionKeys s) : strIncludes key ":" = true := by
  unfold scanFunctionKeys at h
  simp only [List.mem_append, List.mem_map] at h
  rcases h with (⟨p, _, rfl⟩ | ⟨p, _, rfl⟩) | ⟨p, _, rfl⟩
  · exact strIncludes_colon_function_pfx _
  · unfold strIncludes
    rw [str_data_append, str_data_append, List.append_assoc]
    exact isInfixB_extend_right (by decide) _
  · unfold strIncludes
    rw [str_data_append, str_data_append, List.append_assoc]
    exact isInfixB_extend_right (by decide) _

theorem replaceFirstL_of_pfx (p x : List Char) (c : Char) (cs : List Char)
    (hp : p = c :: cs) : replaceFirstL p [] (p ++ x) = x := by
  subst hp
  show replaceFirstL (c :: cs) [] (c :: (cs ++ x)) = x
  unfold replaceFirstL
  rw [show listPfx (c :: cs) (c :: (cs ++ x)) = true from listPfx_append_self _ _]
  simp

theorem strReplaceFirst_function_pfx (r : String) :
    strReplaceFirst ("function:" ++ r) "function:" "" = r := by
  unfold strReplaceFirst
  rw [show ("" : String).data = [] from rfl, str_data_append,
    replaceFirstL_of_pfx "function:".data r.data 'f' "unction:".data rfl]

/-! ## deleteFileData never collects any function

Every key matched by `SCAN ... MATCH function:*` textually contains `:`
(its mandatory `function:` part already does), so the guard
`if (key.includes(':')) continue` — intended, per the source comment, to skip
only the `:calls` / `:called_by` relationship keys — skips every scanned key.
Consequently `deleteFileData` deletes no function metadata and no edge set:
only the file's fingerprint and `file:<path>:meta` records go away. -/

theorem deleteFileDataScan_eq_nil (filePath : String) (s : Store) :
    deleteFileDataScan filePath s = [] := by
  unfold deleteFileDataScan
  rw [List.filterMap_eq_nil_iff]
  intro key hk
  simp [scanFunctionKeys_includes_colon hk]

theorem deleteFileData_eq (filePath : String) (s : Store) :
    deleteFileData filePath s =
      { s with
        fileHashes := delAssoc filePath s.fileHashes
        fileMeta := delAssoc filePath s.fileMeta } := by
  unfold deleteFileData
  rw [deleteFileDataScan_eq_nil]
  rfl

/-! ## C1: deletion completeness -/

/-- C1. The claim states that after `deleteFileData(p)` no function record
with `file == p` remains discoverable via `getAllFunctions` and that the
function's metadata and edge sets are deleted along with `p`'s fingerprint.
The code refutes this: in `fooStore` the file `a.js` owns the single function
`foo`, yet after `deleteFileData "a.js"` the function `foo` is still
enumerated, its metadata hash still answers `getFunction`, and its outgoing
edge set is intact — only the fingerprint and per-file metadata records are
gone.  The cause: the scan loop's guard `if (key.includes(':')) continue`
skips every `function:*` key (they all contain `:`), contradicting the
adjacent source comment "Skip relationship keys". -/
theorem deleteFileData_leaves_function_records :
    getAllFunctions (deleteFileData "a.js" fooStore) = ["foo"] ∧
    getFunction "foo" (deleteFileData "a.js" fooStore) = getFunction "foo" fooStore ∧
    getFunctionCalls (deleteFileData "a.js" fooStore) "foo" = ["g"] ∧
    getFileHashPure "a.js" (deleteFileData "a.js" fooStore) = none ∧
    getAssoc "a.js" (deleteFileData "a.js" fooStore).fileMeta = none := by
  decide

/-! ## C3: the reverse trace -/

/-- C3. The claim states that `findAffectedFunctions(f, maxDepth)` never
contains `f` itself and that on the stored cycle `a → b → c → a` the reverse
trace of `c` with depth 5 returns exactly `{a, b}`.  The code refutes both
conjuncts: the accumulating `affected` set doubles as the visited set and
each caller is inserted before the recursive call on it, so the recursion
always terminates immediately and only direct callers are returned — the
cycle yields `["b"]`, not `{a, b}` — while a self-recursive `f` is its own
direct caller and so appears in its own result. -/
theorem findAffected_direct_callers_only :
    findAffectedFunctions cycStore "c" 5 = ["b"] ∧
    findAffectedFunctions selfLoopStore "f" 5 = ["f"] := by
  decide

/-! ## C9: setFunction idempotence -/

/-- C9. `setFunction` overwrites the whole `function:<name>` hash in place,
so a second call with the identical name and metadata leaves the store in
exactly the state of a single call.  `Date.now()` is threaded explicitly as
`t`; the theorem quantifies over both calls' timestamps and shows the double
call equals the single call carrying the final timestamp (with `t' = t` this
is literal idempotence). -/
theorem setFunction_idempotent (functionName : String) (m : MetaIn)
    (t t' : Nat) (s : Store) :
    setFunction functionName m t (setFunction functionName m t' s) =
      setFunction functionName m t s := by
  unfold setFunction
  simp [setAssoc_setAssoc]

/-! ## C2: edge symmetry -/

theorem edgeSymmetric_empty : edgeSymmetric emptyStore := by
  intro x y
  simp [getFunctionCalls, getFunctionCallers, emptyStore, getAssoc]

theorem edgeSymmetric_setFunction {s : Store} (h : edgeSymmetric s)
    (name : String) (m : MetaIn) (t : Nat) :
    edgeSymmetric (setFunction name m t s) :=
  fun x y => h x y

theorem edgeSymmetric_setFileHash {s : Store} (h : edgeSymmetric s)
    (p hs : String) (t : Nat) : edgeSymmetric (setFileHash p hs t s) :=
  fun x y => h x y

theorem edgeSymmetric_addFunctionCall {s : Store} (h : edgeSymmetric s)
    (a b : String) : edgeSymmetric (addFunctionCall a b s) := by
  intro x y
  show y ∈ (getAssoc x (saddAssoc a b s.calls)).getD []
    ↔ x ∈ (getAssoc y (saddAssoc b a s.calledBy)).getD []
  rw [mem_saddAssoc, mem_saddAssoc]
  have hxy := h x y
  have hay := h a y
  have hxb := h x b
  have hab := h a b
  unfold getFunctionCalls getFunctionCallers at hxy hay hxb hab
  by_cases hx : x = a <;> by_cases hy : y = b
  · subst hx; subst hy; tauto
  · subst hx; tauto
  · subst hy; tauto
  · tauto

theorem edgeSymmetric_deleteFileData {s : Store} (h : edgeSymmetric s)
    (p : String) : edgeSymmetric (deleteFileData p s) := by
  rw [deleteFileData_eq]
  exact fun x y => h x y

theorem edgeSymmetric_batchDeleteFiles {s : Store} (h : edgeSymmetric s)
    (ps : List String) : edgeSymmetric (batchDeleteFiles ps s) := by
  unfold batchDeleteFiles
  induction ps generalizing s with
  | nil => exact h
  | cons p rest ih =>
    simp only [List.foldl_cons]
    exact ih (fun x y => h x y)

theorem edgeSymmetric_foldl_addCall {s : Store} (h : edgeSymmetric s)
    (name : String) (cs : List String) :
    edgeSymmetric (cs.foldl (fun a c => addFunctionCall name c a) s) := by
  induction cs generalizing s with
  | nil => exact h
  | cons c rest ih =>
    simp only [List.foldl_cons]
    exact ih (edgeSymmetric_addFunctionCall h name c)

theorem edgeSymmetric_indexFunction {s : Store} (h : edgeSymmetric s)
    (filePath : String) (fn : FnRecord) (t : Nat) :
    edgeSymmetric (indexFunction filePath fn t s) :=
  edgeSymmetric_foldl_addCall (edgeSymmetric_setFunction h _ _ _) fn.name fn.calls

theorem edgeSymmetric_batchPipelineOps {s : Store} (h : edgeSymmetric s)
    (fns : List BatchFn) (t : Nat) :
    edgeSymmetric (batchPipelineOps fns t s) := by
  unfold batchPipelineOps
  induction fns generalizing s with
  | nil => exact h
  | cons fn rest ih =>
    simp only [List.foldl_cons]
    exact ih (edgeSymmetric_foldl_addCall (edgeSymmetric_setFunction h _ _ _) fn.name fn.calls)

/-- C2. Every store state reachable by any sequence of the core's operations
satisfies edge symmetry: `y ∈ calls(x)` iff `x ∈ called_by(y)`.
`addFunctionCall` inserts both sides in the same mutation, no other
operation touches an edge set — in particular `deleteFileData`, whose
scan guard skips every key, deletes no edge set at all. -/
theorem edge_symmetry_of_reachable (s : Store) (h : Reachable s) :
    edgeSymmetric s := by
  induction h with
  | empty => exact edgeSymmetric_empty
  | setFn name m t _ ih => exact edgeSymmetric_setFunction ih name m t
  | addCall a b _ ih => exact edgeSymmetric_addFunctionCall ih a b
  | setHash p hs t _ ih => exact edgeSymmetric_setFileHash ih p hs t
  | delFile p _ ih => exact edgeSymmetric_deleteFileData ih p
  | batch fns t _ ih => exact edgeSymmetric_batchPipelineOps ih fns t
  | batchDel ps _ ih => exact edgeSymmetric_batchDeleteFiles ih ps

/-- Witness for C2 at a concrete reachable store: the three-edge cycle. -/
theorem edge_symmetry_of_reachable_witness : edgeSymmetric cycStore :=
  edge_symmetry_of_reachable cycStore
    (Reachable.addCall "c" "a"
      (Reachable.addCall "b" "c" (Reachable.addCall "a" "b" Reachable.empty)))

/-! ## C4: node uniqueness in the forward trace -/

theorem mem_addSet_self (x : String) (l : List String) : x ∈ addSet x l :=
  mem_addSet.mpr (Or.inl rfl)

theorem mem_addSet_of_mem {x : String} (y : String) {l : List String}
    (h : x ∈ l) : x ∈ addSet y l :=
  mem_addSet.mpr (Or.inr h)

theorem traceChildren_visited (s : Store) (fuel d : Nat) (name : String)
    (visited : List String) (h : name ∈ visited) :
    traceChildren s fuel d name visited = ([], visited) := by
  cases fuel with
  | zero => simp [traceChildren]
  | succ fuel => simp [traceChildren, h]

theorem expandedNamesF_append_singleton (fuelE : Nat) (F : List DepTree)
    (t : DepTree) :
    expandedNamesF fuelE (F ++ [t]) = expandedNamesF fuelE F ++ expandedNamesT fuelE t := by
  simp [expandedNamesF]

/-- Preservation of `TraceFoldInv` along the sibling fold, assuming the
one-deeper recursion satisfies `TraceSpec`. -/
theorem traceFold_inv (s : Store) (fuel d : Nat) (name : String)
    (visited : List String)
    (ih : ∀ d' name' visited', TraceSpec s fuel d' name' visited') :
    ∀ (l : List String) (acc : List DepTree × List String),
      TraceFoldInv name visited acc →
      TraceFoldInv name visited
        (l.foldl (fun acc called =>
          let r := traceChildren s fuel (d + 1) called acc.2
          (acc.1 ++ [DepTree.node called (d + 1) r.1], r.2)) acc) := by
  intro l
  induction l with
  | nil => exact fun acc h => h
  | cons called rest ihl =>
    intro acc hacc
    simp only [List.foldl_cons]
    apply ihl
    show TraceFoldInv name visited
      (acc.1 ++ [DepTree.node called (d + 1)
          (traceChildren s fuel (d + 1) called acc.2).1],
        (traceChildren s fuel (d + 1) called acc.2).2)
    obtain ⟨hmono, hexp⟩ := hacc
    obtain ⟨m1, m2, m3⟩ := ih (d + 1) called acc.2
    constructor
    · exact fun x hx => m1 x (hmono x hx)
    · intro fuelE
      rw [expandedNamesF_append_singleton]
      cases fuelE with
      | zero =>
        rw [show expandedNamesT 0 (DepTree.node called (d + 1)
            (traceChildren s fuel (d + 1) called acc.2).1) = [] from rfl,
          List.append_nil]
        exact ⟨(hexp 0).1, fun x hx =>
          ⟨m1 x ((hexp 0).2 x hx).1, ((hexp 0).2 x hx).2⟩⟩
      | succ fe =>
        by_cases hk : (traceChildren s fuel (d + 1) called acc.2).1.isEmpty
        · have hk' : (traceChildren s fuel (d + 1) called acc.2).1 = [] :=
            List.isEmpty_iff.mp hk
          rw [hk',
            show expandedNamesT (fe + 1) (DepTree.node called (d + 1) []) = []
              by simp [expandedNamesT],
            List.append_nil]
          exact ⟨(hexp (fe + 1)).1, fun x hx =>
            ⟨m1 x ((hexp (fe + 1)).2 x hx).1, ((hexp (fe + 1)).2 x hx).2⟩⟩
        · have hkni : (traceChildren s fuel (d + 1) called acc.2).1 ≠ [] := by
            intro h0
            rw [h0] at hk
            exact hk rfl
          have hcv : called ∉ acc.2 := by
            intro hin
            rw [traceChildren_visited s fuel (d + 1) called acc.2 hin] at hkni
            exact hkni rfl
          have hcv1 : called ∈ (traceChildren s fuel (d + 1) called acc.2).2 :=
            m2 hkni
          have hifn : (traceChildren s fuel (d + 1) called acc.2).1.isEmpty = false := by
            simpa using hk
          rw [show expandedNamesT (fe + 1) (DepTree.node called (d + 1)
              (traceChildren s fuel (d + 1) called acc.2).1)
              = called :: expandedNamesF fe
                  (traceChildren s fuel (d + 1) called acc.2).1
            by simp [expandedNamesT, expandedNamesF, hifn]]
          have hsubA : ∀ x ∈ expandedNamesF (fe + 1) acc.1, x ∈ acc.2 :=
            fun x hx => ((hexp (fe + 1)).2 x hx).1
          have hsubK : ∀ x ∈ expandedNamesF fe
              (traceChildren s fuel (d + 1) called acc.2).1,
              x ∉ addSet called acc.2 :=
            fun x hx => ((m3 fe).2 x hx).2
          constructor
          · rw [List.nodup_append]
            refine ⟨(hexp (fe + 1)).1, ?_, ?_⟩
            · rw [List.nodup_cons]
              refine ⟨?_, (m3 fe).1⟩
              intro hc
              exact hsubK called hc (mem_addSet_self called acc.2)
            · intro a haA haK
              have haA2 : a ∈ acc.2 := hsubA a haA
              rcases List.mem_cons.mp haK with rfl | haK'
              · exact hcv haA2
              · exact hsubK a haK' (mem_addSet_of_mem called haA2)
          · intro x hx
            rcases List.mem_append.mp hx with hxA | hxK
            · exact ⟨m1 x (hsubA x hxA), ((hexp (fe + 1)).2 x hxA).2⟩
            · rcases List.mem_cons.mp hxK with rfl | hxK'
              · refine ⟨hcv1, ?_⟩
                intro hxin
                exact hcv (hmono x hxin)
              · refine ⟨((m3 fe).2 x hxK').1, ?_⟩
                intro hxin
                exact hsubK x hxK' (mem_addSet_of_mem called (hmono x hxin))

theorem traceChildren_spec (s : Store) (fuel : Nat) :
    ∀ d name visited, TraceSpec s fuel d name visited := by
  induction fuel with
  | zero =>
    intro d name visited
    refine ⟨?_, ?_, ?_⟩
    · intro x hx
      simpa [traceChildren] using hx
    · intro h
      simp [traceChildren] at h
    · intro fuelE
      constructor <;> simp [traceChildren, expandedNamesF]
  | succ fuel ih =>
    intro d name visited
    by_cases hv : name ∈ visited
    · have heq := traceChildren_visited s (fuel + 1) d name visited hv
      refine ⟨?_, ?_, ?_⟩
      · intro x hx
        rw [heq]
        exact hx
      · intro h
        rw [heq] at h
        exact absurd rfl h
      · intro fuelE
        rw [heq]
        constructor <;> simp [expandedNamesF]
    · have heq : traceChildren s (fuel + 1) d name visited =
          (getFunctionCalls s name).foldl
            (fun acc called =>
              let r := traceChildren s fuel (d + 1) called acc.2
              (acc.1 ++ [DepTree.node called (d + 1) r.1], r.2))
            ([], addSet name visited) := by
        simp [traceChildren, hv]
      have hinv := traceFold_inv s fuel d name visited ih
        (getFunctionCalls s name) ([], addSet name visited)
        ⟨fun x hx => hx, fun fuelE => by
          constructor <;> simp [expandedNamesF]⟩
      refine ⟨?_, ?_, ?_⟩
      · intro x hx
        rw [heq]
        exact hinv.1 x (mem_addSet_of_mem name hx)
      · intro _
        rw [heq]
        exact hinv.1 name (mem_addSet_self name visited)
      · intro fuelE
        rw [heq]
        exact hinv.2 fuelE

/-- C4, corrected. The claim that every function name appears as a node at
most once in the `traceDependencies` tree is refuted by
`traceDependencies_duplicate_node`: the source pushes a child node before the
visited check of the recursive call, so an already-visited name appears again
as a leaf.  What does hold is that each name is *expanded* at most once: over
the whole returned tree, at most one node per name carries a nonempty
`dependencies` list (the global visited set makes repeated reachings
contribute no further children). -/
theorem traceDependencies_expands_each_name_once (s : Store)
    (functionName : String) (maxDepth fuelE : Nat) :
    (expandedNamesT fuelE (traceDependencies s functionName maxDepth)).Nodup := by
  cases fuelE with
  | zero => simp [expandedNamesT]
  | succ fe =>
    unfold traceDependencies
    obtain ⟨h1, h2, h3⟩ := traceChildren_spec s maxDepth 0 functionName []
    obtain ⟨hn, hm⟩ := h3 fe
    show ((if (traceChildren s maxDepth 0 functionName []).1.isEmpty
        then ([] : List String) else [functionName]) ++
      expandedNamesF fe (traceChildren s maxDepth 0 functionName []).1).Nodup
    by_cases hk : (traceChildren s maxDepth 0 functionName []).1.isEmpty
    · rw [if_pos hk, List.nil_append]
      exact hn
    · rw [if_neg hk, List.singleton_append, List.nodup_cons]
      refine ⟨?_, hn⟩
      intro hc
      exact (hm functionName hc).2 (mem_addSet_self functionName [])

/-- C4, counterexample to the claim as stated: in the diamond store `a` calls
`b` and `c`, both of which call `d`; the forward trace of `a` contains two
nodes labelled `d` (the second is a childless leaf), so a function reachable
via two paths does not appear only once. -/
theorem traceDependencies_duplicate_node :
    countNameT "d" 10 (traceDependencies diamondStore "a" 5) = 2 := by
  decide

/-! ## C5: depth-bounded, cycle-safe traversal -/

/-- Depth bounds along the sibling fold of the forward trace: every node of
the forest built with remaining budget `fuel + 1` below a parent at depth `d`
sits at depth between `d + 1` and `d + 1 + fuel`. -/
theorem traceFold_depth_bound (s : Store) (fuel d : Nat)
    (ih : ∀ d' name' visited' fuelE (p : String × Nat),
      p ∈ ((traceChildren s fuel d' name' visited').1.map (nodeDepths fuelE)).flatten →
      d' + 1 ≤ p.2 ∧ p.2 ≤ d' + fuel) :
    ∀ (l : List String) (acc : List DepTree × List String),
      (∀ fuelE (p : String × Nat), p ∈ (acc.1.map (nodeDepths fuelE)).flatten →
        d + 1 ≤ p.2 ∧ p.2 ≤ d + (fuel + 1)) →
      ∀ fuelE (p : String × Nat),
        p ∈ ((l.foldl (fun acc called =>
            let r := traceChildren s fuel (d + 1) called acc.2
            (acc.1 ++ [DepTree.node called (d + 1) r.1], r.2)) acc).1.map
          (nodeDepths fuelE)).flatten →
        d + 1 ≤ p.2 ∧ p.2 ≤ d + (fuel + 1) := by
  intro l
  induction l with
  | nil => exact fun acc h => h
  | cons called rest ihl =>
    intro acc hacc
    simp only [List.foldl_cons]
    apply ihl
    intro fuelE p hp
    simp only [List.map_append, List.flatten_append] at hp
    rcases List.mem_append.mp hp with hp1 | hp2
    · exact hacc fuelE p hp1
    · simp only [List.map_cons, List.map_nil, List.flatten_cons,
        List.flatten_nil, List.append_nil] at hp2
      cases fuelE with
      | zero => simp [nodeDepths] at hp2
      | succ fe =>
        simp only [nodeDepths] at hp2
        rcases List.mem_cons.mp hp2 with rfl | hp3
        · exact ⟨Nat.le_refl _, by omega⟩
        · have := ih (d + 1) called acc.2 fe p hp3
          omega

/-- Every node of the forest returned by the forward-trace recursion at
depth `d` with budget `fuel` sits strictly below `d` and at most `fuel`
levels deeper. -/
theorem traceChildren_depth_bound (s : Store) (fuel : Nat) :
    ∀ d name visited fuelE (p : String × Nat),
      p ∈ ((traceChildren s fuel d name visited).1.map (nodeDepths fuelE)).flatten →
      d + 1 ≤ p.2 ∧ p.2 ≤ d + fuel := by
  induction fuel with
  | zero =>
    intro d name visited fuelE p hp
    simp [traceChildren] at hp
  | succ fuel ih =>
    intro d name visited fuelE p hp
    by_cases hv : name ∈ visited
    · rw [traceChildren_visited s (fuel + 1) d name visited hv] at hp
      simp at hp
    · rw [show traceChildren s (fuel + 1) d name visited =
          (getFunctionCalls s name).foldl
            (fun acc called =>
              let r := traceChildren s fuel (d + 1) called acc.2
              (acc.1 ++ [DepTree.node called (d + 1) r.1], r.2))
            ([], addSet name visited)
        by simp [traceChildren, hv]] at hp
      exact traceFold_depth_bound s fuel d ih (getFunctionCalls s name)
        ([], addSet name visited) (fun fuelE p hp0 => by simp at hp0) fuelE p hp

/-- Soundness of the reverse-trace fold: everything it adds over the initial
accumulator is reverse-reachable from some caller in the remaining list. -/
theorem findAffectedFold_sub (s : Store) (fuel : Nat)
    (ih : ∀ name affected x, x ∈ findAffectedRec s fuel name affected →
      x ∈ affected ∨ revReachB s fuel name x = true) :
    ∀ (l : List String) (acc : List String) (x : String),
      x ∈ l.foldl (fun acc c => findAffectedRec s fuel c (addSet c acc)) acc →
      x ∈ acc ∨ ∃ c ∈ l, c = x ∨ revReachB s fuel c x = true := by
  intro l
  induction l with
  | nil => exact fun acc x hx => Or.inl hx
  | cons c rest ihl =>
    intro acc x hx
    simp only [List.foldl_cons] at hx
    rcases ihl _ x hx with hx1 | ⟨c', hc', hx2⟩
    · rcases ih c (addSet c acc) x hx1 with hx2 | hx3
      · rcases mem_addSet.mp hx2 with heq | hx4
        · exact Or.inr ⟨c, List.mem_cons_self c rest, Or.inl heq.symm⟩
        · exact Or.inl hx4
      · exact Or.inr ⟨c, List.mem_cons_self c rest, Or.inr hx3⟩
    · exact Or.inr ⟨c', List.mem_cons_of_mem c hc', hx2⟩

/-- Soundness of the reverse-trace recursion with respect to bounded
reverse reachability. -/
theorem findAffectedRec_sub (s : Store) (fuel : Nat) :
    ∀ name affected x, x ∈ findAffectedRec s fuel name affected →
      x ∈ affected ∨ revReachB s fuel name x = true := by
  induction fuel with
  | zero =>
    intro name affected x hx
    exact Or.inl (by simpa [findAffectedRec] using hx)
  | succ fuel ih =>
    intro name affected x hx
    by_cases hn : name ∈ affected
    · rw [show findAffectedRec s (fuel + 1) name affected = affected
        by simp [findAffectedRec, hn]] at hx
      exact Or.inl hx
    · rw [show findAffectedRec s (fuel + 1) name affected =
          (getFunctionCallers s name).foldl
            (fun acc caller => findAffectedRec s fuel caller (addSet caller acc))
            affected
        by simp [findAffectedRec, hn]] at hx
      rcases findAffectedFold_sub s fuel ih (getFunctionCallers s name) affected x hx
        with hx1 | ⟨c, hc, hx2⟩
      · exact Or.inl hx1
      · right
        rw [revReachB]
        rw [List.any_eq_true]
        refine ⟨c, hc, ?_⟩
        rcases hx2 with rfl | hx3
        · simp
        · simp [hx3]

/-- C5. Both traversals are depth-bounded: every node of the
`traceDependencies` tree sits at depth at most `maxDepth` (the root is at 0
and every expansion happens strictly below the `depth >= maxDepth` cutoff),
and every name returned by `findAffectedFunctions` is reverse-reachable from
the start within at most `maxDepth` caller hops.  Totality of the embedded
recursions on the fuel measure `maxDepth - depth` — which exists exactly
because of that cutoff — renders the termination half of the claim. -/
theorem traversal_depth_bounded (s : Store) (functionName : String)
    (maxDepth : Nat) :
    (∀ fuelE (p : String × Nat),
      p ∈ nodeDepths fuelE (traceDependencies s functionName maxDepth) →
      p.2 ≤ maxDepth) ∧
    (∀ x, x ∈ findAffectedFunctions s functionName maxDepth →
      revReachB s maxDepth functionName x = true) := by
  constructor
  · intro fuelE p hp
    cases fuelE with
    | zero => simp [nodeDepths] at hp
    | succ fe =>
      unfold traceDependencies at hp
      simp only [nodeDepths] at hp
      rcases List.mem_cons.mp hp with rfl | hp2
      · exact Nat.zero_le _
      · have := traceChildren_depth_bound s maxDepth 0 functionName [] fe p hp2
        omega
  · intro x hx
    rcases findAffectedRec_sub s maxDepth functionName [] x hx with h0 | h1
    · simp at h0
    · exact h1

/-- Witness for C5 on the cyclic store, start `c`, depth 5: the node `a` at
depth 1 obeys the bound and the returned `b` is reverse-reachable. -/
theorem traversal_depth_bounded_witness :
    (("a", 1) : String × Nat).2 ≤ 5 ∧ revReachB cycStore 5 "c" "b" = true :=
  ⟨(traversal_depth_bounded cycStore "c" 5).1 10 ("a", 1) (by decide),
   (traversal_depth_bounded cycStore "c" 5).2 "b" (by decide)⟩

/-! ## C6: error accounting of the per-file indexing step -/

/-- C6, counterexample to the claim as stated: a file whose Babel parse
throws is not counted as a file-level error and is not skipped for storage.
`JavaScriptParser.parse`'s catch branch converts the throw into the valid
empty result, so `indexFile` on a fresh `a.js` whose parse raised reports
zero errors and still writes the file's fingerprint. -/
theorem indexFile_parse_error_not_counted :
    (indexFile hashH "a.js" "src" true false (jsParserParse .raised) 7 emptyStore).1 =
      { skipped := false, functionsIndexed := 0, errors := 0 } ∧
    getFileHashPure "a.js"
        (indexFile hashH "a.js" "src" true false (jsParserParse .raised) 7 emptyStore).2 =
      some (hashH "src") := by
  decide

/-- C6, amended. For a file the run actually processes (forced, or changed
per the fingerprint): a parse failure inside the registered JavaScript
parser always yields a valid shape — the empty function list — so the step
counts zero errors and still updates the fingerprint; only a parse result
that fails shape validation (impossible for the registered parser, but the
orchestrator guards for it) counts exactly one file-level error, and then
the step performs no function or fingerprint writes — the store carries only
the prior stale-data deletion. -/
theorem indexFile_error_accounting (hashFn : String → String)
    (filePath content : String) (force skipDelete : Bool) (t : Nat) (s : Store)
    (hp : jsCanParse filePath = true)
    (hproc : force = true ∨ shouldReindex hashFn filePath content s = true) :
    (∀ b : BabelOutcome, validateResult (jsParserParse b) = true) ∧
    (indexFile hashFn filePath content force skipDelete (jsParserParse .raised) t s).1 =
      { skipped := false, functionsIndexed := 0, errors := 0 } ∧
    getFileHashPure filePath
        (indexFile hashFn filePath content force skipDelete (jsParserParse .raised) t s).2 =
      some (hashFn content) ∧
    (indexFile hashFn filePath content force skipDelete ParseShape.invalid t s).1 =
      { skipped := false, functionsIndexed := 0, errors := 1 } ∧
    (indexFile hashFn filePath content force skipDelete ParseShape.invalid t s).2 =
      (if skipDelete then s else deleteFileData filePath s) := by
  have hcond : (!force && !shouldReindex hashFn filePath content s) = false := by
    rcases hproc with h | h <;> simp [h]
  refine ⟨fun b => by cases b <;> rfl, ?_, ?_, ?_, ?_⟩
  · simp [indexFile, hp, hcond, jsParserParse, indexerIndex]
  · simp [indexFile, hp, hcond, jsParserParse, indexerIndex, setFileHash,
      getFileHashPure, getAssoc_setAssoc_self]
  · simp [indexFile, hp, hcond]
  · cases skipDelete <;> simp [indexFile, hp, hcond]

/-- Witness for C6 (amended) at a concrete input: an invalid-shape parse of
a fresh forced `a.js` counts exactly one error. -/
theorem indexFile_error_accounting_witness :
    (indexFile hashH "a.js" "src" true false ParseShape.invalid 7 emptyStore).1 =
      { skipped := false, functionsIndexed := 0, errors := 1 } :=
  (indexFile_error_accounting hashH "a.js" "src" true false 7 emptyStore
    (by decide) (Or.inl rfl)).2.2.2.1

/-! ## C7: store connectivity failures are not fatal to the run -/

/-- C7, counterexample to the claim as stated: a connectivity failure during
a fingerprint read is swallowed (`getFileHash`'s catch returns `null`, which
`shouldReindex` treats as "not indexed yet"), and a per-file step that throws
with a connectivity error is caught by the run loop, which counts one error
and keeps indexing the remaining files — `c.js` is still processed after
`b.js` failed. -/
theorem connectivity_failure_not_fatal :
    shouldReindexClient hashH "src" (Except.error "ECONNREFUSED") = true ∧
    indexCodebaseLoop stepConn ["a.js", "b.js", "c.js"] =
      { filesProcessed := 2, filesSkipped := 0, functionsIndexed := 2, errors := 1 } := by
  decide

/-- C7, amended. A store failure during a fingerprint read is converted to
`null` and makes `shouldReindex` answer `true` (the file is re-indexed, the
run continues); a store failure that throws out of the per-file step is
caught by `indexCodebase`'s loop, which adds one error and continues with
the remaining files unchanged. -/
theorem connectivity_failure_handling (hashFn : String → String)
    (content e : String) (step : String → Except String IndexFileResult)
    (f : String) (files : List String) (tot : RunTotals)
    (hf : step f = .error e) :
    shouldReindexClient hashFn content (Except.error e) = true ∧
    (f :: files).foldl (runStep step) tot =
      files.foldl (runStep step) { tot with errors := tot.errors + 1 } := by
  constructor
  · rfl
  · simp [runStep, hf]

/-- Witness for C7 (amended): the failing `b.js` step bumps the error count
and the loop proceeds over the tail. -/
theorem connectivity_failure_handling_witness :
    shouldReindexClient hashH "src" (Except.error "ECONNREFUSED") = true ∧
    ("b.js" :: ["c.js"]).foldl (runStep stepConn)
        { filesProcessed := 1, filesSkipped := 0, functionsIndexed := 1, errors := 0 } =
      ["c.js"].foldl (runStep stepConn)
        { filesProcessed := 1, filesSkipped := 0, functionsIndexed := 1, errors := 1 } :=
  connectivity_failure_handling hashH "src" "ECONNREFUSED" stepConn "b.js" ["c.js"]
    { filesProcessed := 1, filesSkipped := 0, functionsIndexed := 1, errors := 0 }
    rfl

/-! ## C8: batch submission is all-or-nothing -/

/-- C8. For a non-empty batch, `batchIndexFunctions` reports
`{indexed: n, errors: 0}` when the grouped pipeline `exec` succeeds and
`{indexed: 0, errors: n}` when it fails as a whole — never a partial
split. -/
theorem batchIndexFunctions_all_or_nothing (fns : List BatchFn)
    (h : fns ≠ []) (execOk : Bool) :
    batchIndexFunctionsCounts fns execOk =
      if execOk then (fns.length, 0) else (0, fns.length) := by
  unfold batchIndexFunctionsCounts
  rw [if_neg (by simpa [List.isEmpty_iff] using h)]

/-- Witness for C8 with the spec's 100-record batch. -/
theorem batchIndexFunctions_all_or_nothing_witness :
    batchIndexFunctionsCounts (List.replicate 100 bfnA) true = (100, 0) ∧
    batchIndexFunctionsCounts (List.replicate 100 bfnA) false = (0, 100) := by
  have h : List.replicate 100 bfnA ≠ [] := by
    intro h0
    have := congrArg List.length h0
    simp at this
  refine ⟨?_, ?_⟩
  · rw [batchIndexFunctions_all_or_nothing _ h true]
    simp
  · rw [batchIndexFunctions_all_or_nothing _ h false]
    simp

/-! ## C10: functions shadowed by the edge-key text filter -/

theorem isBaseFunctionKey_calls_key (n : String) :
    isBaseFunctionKey ("function:" ++ n ++ ":calls") = false := by
  unfold isBaseFunctionKey
  rw [@strIncludes_of_data_suffix ("function:" ++ n ++ ":calls") ":calls"
    (("function:" ++ n).data) rfl]
  rfl

theorem isBaseFunctionKey_calledby_key (n : String) :
    isBaseFunctionKey ("function:" ++ n ++ ":called_by") = false := by
  unfold isBaseFunctionKey
  rw [@strIncludes_of_data_suffix ("function:" ++ n ++ ":called_by") ":called_by"
    (("function:" ++ n).data) rfl]
  simp [strIncludes]

/-- C10. `getAllFunctions` and `getStats` filter scanned keys by the raw
substring tests `key.includes(':calls')` / `key.includes(':called_by')`, so a
stored function whose own `function:<name>` key contains one of those
substrings (e.g. any name starting with `calls` or `called_by`) is dropped
from enumeration and excluded from the keys `getStats` counts as functions —
even though `setFunction` stores it and `getFunction` returns its
metadata. -/
theorem edge_namespace_shadowing (s : Store) (name : String) (m : MetaIn)
    (t : Nat)
    (h : strIncludes ("function:" ++ name) ":calls" = true ∨
      strIncludes ("function:" ++ name) ":called_by" = true) :
    name ∉ getAllFunctions (setFunction name m t s) ∧
    ("function:" ++ name) ∉ statsCountedKeys (setFunction name m t s) ∧
    getFunction name (setFunction name m t s) = some (normalizeMeta m t) := by
  have hbase : isBaseFunctionKey ("function:" ++ name) = false := by
    unfold isBaseFunctionKey
    rcases h with h | h <;> rw [h] <;> simp
  refine ⟨?_, ?_, ?_⟩
  · intro hmem
    unfold getAllFunctions at hmem
    rcases List.mem_map.mp hmem with ⟨key, hkey, hstrip⟩
    rcases List.mem_filter.mp hkey with ⟨hscan, hb⟩
    unfold scanFunctionKeys at hscan
    simp only [List.mem_append, List.mem_map] at hscan
    rcases hscan with (⟨p, _, rfl⟩ | ⟨p, _, rfl⟩) | ⟨p, _, rfl⟩
    · rw [strReplaceFirst_function_pfx] at hstrip
      subst hstrip
      rw [hbase] at hb
      exact Bool.false_ne_true hb
    · rw [isBaseFunctionKey_calls_key] at hb
      exact Bool.false_ne_true hb
    · rw [isBaseFunctionKey_calledby_key] at hb
      exact Bool.false_ne_true hb
  · intro hmem
    rcases List.mem_filter.mp hmem with ⟨_, hb⟩
    rw [hbase] at hb
    exact Bool.false_ne_true hb
  · exact getAssoc_setAssoc_self name (normalizeMeta m t) s.functions

/-- Witness for C10: the function named `callsHelper`. -/
theorem edge_namespace_shadowing_witness :
    "callsHelper" ∉ getAllFunctions (setFunction "callsHelper" metaA 5 emptyStore) ∧
    ("function:" ++ "callsHelper") ∉
      statsCountedKeys (setFunction "callsHelper" metaA 5 emptyStore) ∧
    getFunction "callsHelper" (setFunction "callsHelper" metaA 5 emptyStore) =
      some (normalizeMeta metaA 5) :=
  edge_namespace_shadowing emptyStore "callsHelper" metaA 5 (Or.inl (by decide))

end CodeMind
